import Mathlib

/-!
Verification development for the `deepserializer` view-set layer
(`src/deepserializer/views.py`).

The embedding models:
* the relation-graph walker `ReadOnlyDeepViewSet.build_possible_fields`
  (views.py lines 47-70), over an abstract finite universe of Django models;
* the per-request query shaping done by `get_serializer` / `get_queryset`
  (exclusion of relation paths, depth resolution, filter and order_by
  validation, views.py lines 84-147);
* the view-set registry `get_view_set_class` / `__init_subclass__`
  (views.py lines 30-45 and 149-180);
* the nested write entry point `deep_create` (views.py lines 191-201), whose
  callee `deep_update_or_create` lives in `serializers.py` and is modelled
  from the specification.
-/

namespace DeepSerializer

/-- One entry of `parent_model._meta.get_fields()`: a field has a `name` and a
`related_model`, which is `none` for a scalar (non-relational) field and
`some m` for a relation targeting model `m`. -/
structure FieldRel (M : Type) where
  name : String
  related_model : Option M
deriving DecidableEq

/-- A Django schema over a finite universe `M` of models: every model has its
list of fields, as returned by `_meta.get_fields()`. -/
structure Schema (M : Type) where
  fields : M → List (FieldRel M)

variable {M : Type} [DecidableEq M] [Fintype M]

/-- Termination measure for `build_possible_fields`: twice the number of models
not yet in `excludes`, plus one when `parent` itself is still outside
`excludes`... (the extra unit accounts for the one self-referential step the
source allows: a self-relation of `parent` is expanded once before `parent`
enters `excludes`). -/
def buildMeasure (parent : M) (excludes : List M) : Nat :=
  2 * (Finset.univ \ excludes.toFinset).card + (if parent ∈ excludes then 1 else 0)

lemma buildMeasure_pos (parent : M) (excludes : List M) :
    1 ≤ buildMeasure parent excludes := by
  unfold buildMeasure
  by_cases h : parent ∈ excludes
  · simp [h]
  · have hmem : parent ∈ Finset.univ \ excludes.toFinset := by
      simp [List.mem_toFinset, h]
    have hcard : 0 < (Finset.univ \ excludes.toFinset).card :=
      Finset.card_pos.mpr ⟨parent, hmem⟩
    omega

lemma buildMeasure_lt {m : M} (parent : M) {excludes : List M}
    (hm : m ∉ excludes) :
    buildMeasure m (excludes ++ [parent]) < buildMeasure parent excludes := by
  unfold buildMeasure
  have htf : (excludes ++ [parent]).toFinset = insert parent excludes.toFinset := by
    ext x
    simp [or_comm]
  rw [htf]
  have hsd : Finset.univ \ insert parent excludes.toFinset
      = (Finset.univ \ excludes.toFinset).erase parent := by
    ext x
    simp only [Finset.mem_sdiff, Finset.mem_erase, Finset.mem_insert,
      Finset.mem_univ, true_and]
    tauto
  rw [hsd]
  by_cases hp : parent ∈ excludes
  · have herase : (Finset.univ \ excludes.toFinset).erase parent
        = Finset.univ \ excludes.toFinset := by
      apply Finset.erase_eq_of_not_mem
      simp [List.mem_toFinset, hp]
    rw [herase]
    have hmp : m ∉ excludes ++ [parent] := by
      simp only [List.mem_append, List.mem_singleton]
      rintro (h | rfl)
      · exact hm h
      · exact hm hp
    simp only [hp, if_pos, hmp, if_neg, if_false]
    omega
  · have hpmem : parent ∈ Finset.univ \ excludes.toFinset := by
      simp [List.mem_toFinset, hp]
    have hcard : ((Finset.univ \ excludes.toFinset).erase parent).card
        = (Finset.univ \ excludes.toFinset).card - 1 :=
      Finset.card_erase_of_mem hpmem
    have hcpos : 0 < (Finset.univ \ excludes.toFinset).card :=
      Finset.card_pos.mpr ⟨parent, hpmem⟩
    rw [hcard]
    have hle : (if m ∈ excludes ++ [parent] then 1 else 0) ≤ 1 := by
      split <;> omega
    have hif : (if parent ∈ excludes then 1 else 0) = 0 := by
      simp [hp]
    rw [hif]
    omega

mutual

/-- Embedding of `ReadOnlyDeepViewSet.build_possible_fields` (views.py 47-70):

    possible_fields = set()
    for field_relation in parent_model._meta.get_fields():
        if (model := field_relation.related_model) not in excludes:
            field_name = field_relation.name
            possible_fields.add(field_name)
            if model:
                possible_fields.update((
                    f"{field_name}__{field}"
                    for field in cls.build_possible_fields(model, excludes + [parent_model])
                ))
    return possible_fields

The loop over `_meta.get_fields()` is factored into `buildFields`. -/
def build_possible_fields [Fintype M] (s : Schema M) (parent : M)
    (excludes : List M) : Finset String :=
  buildFields s (s.fields parent) parent excludes
termination_by (buildMeasure parent excludes, (s.fields parent).length + 1)

/-- The body of the `for field_relation in parent_model._meta.get_fields()`
loop of `build_possible_fields`, one field at a time.  A scalar field
(`related_model is None`) always passes the `not in excludes` test (the
excludes list only ever holds models); a relation whose target is in
`excludes` contributes nothing at all. -/
def buildFields [Fintype M] (s : Schema M) (fs : List (FieldRel M)) (parent : M)
    (excludes : List M) : Finset String :=
  match fs with
  | [] => ∅
  | f :: rest =>
    match f.related_model with
    | none => insert f.name (buildFields s rest parent excludes)
    | some m =>
      if hm : m ∈ excludes then buildFields s rest parent excludes
      else
        insert f.name
          (((build_possible_fields s m (excludes ++ [parent])).image
              (fun q => f.name ++ "__" ++ q)) ∪
            buildFields s rest parent excludes)
termination_by (buildMeasure parent excludes, fs.length)
decreasing_by
  all_goals first
    | exact Prod.Lex.left _ _ (buildMeasure_lt parent hm)
    | exact Prod.Lex.right _ (by simp [List.length_cons])

end

/-- Fuel-indexed mirror of `build_possible_fields`: the same recursion as the
Python source, except that it gives up (returns `none`) when the fuel `n` runs
out instead of recursing further.  A run of the source terminates exactly when
some finite fuel makes this function return `some`. -/
def buildFuel (s : Schema M) : Nat → M → List M → Option (Finset String)
  | 0, _, _ => none
  | n + 1, parent, excludes =>
    (s.fields parent).foldr
      (fun f acc =>
        match acc with
        | none => none
        | some accSet =>
          match f.related_model with
          | none => some (insert f.name accSet)
          | some m =>
            if m ∈ excludes then some accSet
            else
              match buildFuel s n m (excludes ++ [parent]) with
              | none => none
              | some sub =>
                some (insert f.name
                  ((sub.image (fun q => f.name ++ "__" ++ q)) ∪ accSet)))
      (some ∅)

/-- With fuel above the termination measure, the fuel-indexed recursion
finishes and computes exactly the total function `build_possible_fields`. -/
theorem buildFuel_correct (s : Schema M) :
    ∀ (n : Nat) (parent : M) (excludes : List M),
      buildMeasure parent excludes < n →
      buildFuel s n parent excludes = some (build_possible_fields s parent excludes) := by
  intro n
  induction n with
  | zero => intro p ex h; omega
  | succ n ih =>
    intro parent ex h
    simp only [build_possible_fields, buildFuel]
    generalize s.fields parent = fs
    induction fs with
    | nil => simp [buildFields]
    | cons f rest ihfs =>
      rw [List.foldr_cons, ihfs]
      cases hrel : f.related_model with
      | none => simp [buildFields, hrel]
      | some m =>
        by_cases hmem : m ∈ ex
        · simp [buildFields, hrel, hmem]
        · have hlt : buildMeasure m (ex ++ [parent]) < n := by
            have := buildMeasure_lt (m := m) parent hmem
            omega
          have hsub := ih m (ex ++ [parent]) hlt
          simp [buildFields, hrel, hmem, hsub]

/-- Transfer concrete runs of the fuel-indexed recursion to the total
function. -/
theorem build_eval (s : Schema M) (n : Nat) (parent : M) (excludes : List M)
    (r : Finset String) (h1 : buildMeasure parent excludes < n)
    (h2 : buildFuel s n parent excludes = some r) :
    build_possible_fields s parent excludes = r := by
  have h := buildFuel_correct s n parent excludes h1
  rw [h2] at h
  exact (Option.some.inj h).symm

/-- Two-model schema with a cycle: model `A` has one relation `b` to `B`, and
`B` has one relation `a` back to `A`.  Used as a concrete instance for the
walker's behaviour on cyclic schemas. -/
inductive MAB where
  | A
  | B
deriving DecidableEq, Fintype

/-- The cyclic two-model schema `A -b-> B -a-> A`. -/
def sAB : Schema MAB :=
  ⟨fun m =>
    match m with
    | .A => [⟨"b", some .B⟩]
    | .B => [⟨"a", some .A⟩]⟩

/-- Single-model schema: model `B` has a self-relation `s` and a scalar field
`x`.  The smallest schema on which paths outgrow the number of models. -/
inductive MS where
  | B
deriving DecidableEq, Fintype

/-- The single-model schema with a direct self-reference. -/
def sSelf : Schema MS :=
  ⟨fun _ => [⟨"s", some .B⟩, ⟨"x", none⟩]⟩

/-- Split a character list on every non-overlapping occurrence of the
two-character separator `__`, keeping empty pieces — the segment structure of
a Django lookup path. -/
def splitSegsChars : List Char → List (List Char)
  | [] => [[]]
  | [c] => [[c]]
  | c :: d :: rest =>
    if c = '_' ∧ d = '_' then [] :: splitSegsChars rest
    else
      match splitSegsChars (d :: rest) with
      | [] => [[c]]
      | seg :: segs => (c :: seg) :: segs

/-- Number of `__`-separated segments of a path string. -/
def segCount (p : String) : Nat :=
  (splitSegsChars p.data).length

/-- `true` when the character list contains no two adjacent underscores. -/
def noDoubleUnderscore : List Char → Bool
  | [] => true
  | [_c] => true
  | a :: b :: rest => !(a == '_' && b == '_') && noDoubleUnderscore (b :: rest)

/-- A valid Django field name: nonempty, does not end with an underscore and
contains no double underscore (Django system checks fields.E001/E002 enforce
exactly this). -/
def validFieldName (nm : String) : Prop :=
  nm.data ≠ [] ∧ nm.data.getLast? ≠ some '_' ∧
    noDoubleUnderscore nm.data = true

/-- All field names of a schema are valid Django field names. -/
def validNames (s : Schema M) : Prop :=
  ∀ m : M, ∀ f ∈ s.fields m, validFieldName f.name

lemma noDouble_cons_cons {a b : Char} {l : List Char}
    (h : noDoubleUnderscore (a :: b :: l) = true) :
    ¬(a = '_' ∧ b = '_') ∧ noDoubleUnderscore (b :: l) = true := by
  simp only [noDoubleUnderscore, Bool.and_eq_true, Bool.not_eq_true',
    Bool.and_eq_false_iff, beq_eq_false_iff_ne, ne_eq] at h
  refine ⟨?_, h.2⟩
  rintro ⟨rfl, rfl⟩
  rcases h.1 with h1 | h1 <;> exact h1 rfl

lemma splitSegsChars_nodouble (nm : List Char)
    (h : noDoubleUnderscore nm = true) :
    splitSegsChars nm = [nm] := by
  induction nm with
  | nil => rfl
  | cons a nm' ih =>
    cases nm' with
    | nil => rfl
    | cons b nm'' =>
      obtain ⟨hcond, hrest⟩ := noDouble_cons_cons h
      show splitSegsChars (a :: b :: nm'') = [a :: b :: nm'']
      simp only [splitSegsChars, if_neg hcond, ih hrest]

lemma splitSegsChars_sep (nm : List Char) (t : List Char)
    (h2 : nm.getLast? ≠ some '_')
    (h3 : noDoubleUnderscore nm = true) :
    splitSegsChars (nm ++ '_' :: '_' :: t) = nm :: splitSegsChars t := by
  induction nm with
  | nil =>
    show splitSegsChars ('_' :: '_' :: t) = [] :: splitSegsChars t
    simp [splitSegsChars]
  | cons a nm' ih =>
    cases nm' with
    | nil =>
      have ha : a ≠ '_' := by
        intro hEq
        exact h2 (by simp [hEq])
      show splitSegsChars (a :: '_' :: '_' :: t) = [a] :: splitSegsChars t
      simp [splitSegsChars, ha]
    | cons b nm'' =>
      obtain ⟨hcond, hrest⟩ := noDouble_cons_cons h3
      have hlast : (b :: nm'').getLast? ≠ some '_' := by
        rwa [List.getLast?_cons_cons] at h2
      have hih := ih hlast hrest
      show splitSegsChars (a :: b :: (nm'' ++ '_' :: '_' :: t))
          = (a :: b :: nm'') :: splitSegsChars t
      have harg : b :: (nm'' ++ '_' :: '_' :: t)
          = (b :: nm'') ++ '_' :: '_' :: t := rfl
      simp only [splitSegsChars, if_neg hcond, harg, hih]

lemma segCount_sep (nm q : String) (hv : validFieldName nm) :
    segCount (nm ++ "__" ++ q) = 1 + segCount q := by
  unfold segCount
  have hdata : (nm ++ "__" ++ q).data = nm.data ++ '_' :: '_' :: q.data := by
    simp [String.data_append]
  rw [hdata, splitSegsChars_sep nm.data q.data hv.2.1 hv.2.2]
  simp [List.length_cons]
  omega

lemma segCount_name (nm : String) (hv : validFieldName nm) :
    segCount nm = 1 := by
  unfold segCount
  rw [splitSegsChars_nodouble nm.data hv.2.2]
  rfl

lemma mem_buildFields {s : Schema M} {fs : List (FieldRel M)} {parent : M}
    {excludes : List M} {p : String} :
    p ∈ buildFields s fs parent excludes ↔
      ∃ f ∈ fs,
        (f.related_model = none ∧ p = f.name) ∨
        ∃ m, f.related_model = some m ∧ m ∉ excludes ∧
          (p = f.name ∨
            ∃ q ∈ build_possible_fields s m (excludes ++ [parent]),
              p = f.name ++ "__" ++ q) := by
  induction fs with
  | nil => simp [buildFields]
  | cons f rest ih =>
    cases hrel : f.related_model with
    | none =>
      simp only [buildFields, hrel, Finset.mem_insert, ih, List.mem_cons]
      constructor
      · rintro (rfl | ⟨f', hf', hcase⟩)
        · exact ⟨f, Or.inl rfl, Or.inl ⟨hrel, rfl⟩⟩
        · exact ⟨f', Or.inr hf', hcase⟩
      · rintro ⟨f', hf' | hf', hcase⟩
        · subst hf'
          rcases hcase with ⟨-, rfl⟩ | ⟨m, hm, -⟩
          · exact Or.inl rfl
          · rw [hrel] at hm; cases hm
        · exact Or.inr ⟨f', hf', hcase⟩
    | some m =>
      by_cases hmem : m ∈ excludes
      · simp only [buildFields, hrel, dif_pos hmem, ih, List.mem_cons]
        constructor
        · rintro ⟨f', hf', hcase⟩
          exact ⟨f', Or.inr hf', hcase⟩
        · rintro ⟨f', hf' | hf', hcase⟩
          · subst hf'
            rcases hcase with ⟨hnone, -⟩ | ⟨m', hm', hnm', -⟩
            · rw [hrel] at hnone; cases hnone
            · rw [hrel] at hm'
              cases Option.some.inj hm'
              exact absurd hmem hnm'
          · exact ⟨f', hf', hcase⟩
      · simp only [buildFields, hrel, dif_neg hmem, Finset.mem_insert,
          Finset.mem_union, Finset.mem_image, ih, List.mem_cons]
        constructor
        · rintro (rfl | ⟨q, hq, rfl⟩ | ⟨f', hf', hcase⟩)
          · exact ⟨f, Or.inl rfl, Or.inr ⟨m, hrel, hmem, Or.inl rfl⟩⟩
          · exact ⟨f, Or.inl rfl,
              Or.inr ⟨m, hrel, hmem, Or.inr ⟨q, hq, rfl⟩⟩⟩
          · exact ⟨f', Or.inr hf', hcase⟩
        · rintro ⟨f', hf' | hf', hcase⟩
          · subst hf'
            rcases hcase with ⟨hnone, -⟩ | ⟨m', hm', -, hrest⟩
            · rw [hrel] at hnone; cases hnone
            · rw [hrel] at hm'
              cases Option.some.inj hm'
              rcases hrest with rfl | ⟨q, hq, rfl⟩
              · exact Or.inl rfl
              · exact Or.inr (Or.inl ⟨q, hq, rfl⟩)
          · exact Or.inr (Or.inr ⟨f', hf', hcase⟩)

lemma mem_build {s : Schema M} {parent : M} {excludes : List M} {p : String} :
    p ∈ build_possible_fields s parent excludes ↔
      ∃ f ∈ s.fields parent,
        (f.related_model = none ∧ p = f.name) ∨
        ∃ m, f.related_model = some m ∧ m ∉ excludes ∧
          (p = f.name ∨
            ∃ q ∈ build_possible_fields s m (excludes ++ [parent]),
              p = f.name ++ "__" ++ q) := by
  have hunfold : build_possible_fields s parent excludes
      = buildFields s (s.fields parent) parent excludes := by
    simp only [build_possible_fields]
  rw [hunfold]
  exact mem_buildFields

/-- Every path the walker emits has at most `buildMeasure` many segments,
provided the schema's field names are valid Django names. -/
lemma build_segCount_le (s : Schema M) (hv : validNames s) :
    ∀ (N : Nat) (parent : M) (excludes : List M) (p : String),
      buildMeasure parent excludes ≤ N →
      p ∈ build_possible_fields s parent excludes →
      segCount p ≤ buildMeasure parent excludes := by
  intro N
  induction N with
  | zero =>
    intro parent ex p hle _
    have := buildMeasure_pos parent ex
    omega
  | succ N ih =>
    intro parent ex p hle hp
    rw [mem_build] at hp
    obtain ⟨f, hf, hcase⟩ := hp
    have hvf : validFieldName f.name := hv parent f hf
    rcases hcase with ⟨-, rfl⟩ | ⟨m, hrel, hm, hcase2⟩
    · rw [segCount_name f.name hvf]
      exact buildMeasure_pos parent ex
    · rcases hcase2 with rfl | ⟨q, hq, rfl⟩
      · rw [segCount_name f.name hvf]
        exact buildMeasure_pos parent ex
      · have hlt := buildMeasure_lt (m := m) parent hm
        have hle' : buildMeasure m (ex ++ [parent]) ≤ N := by omega
        have hq' := ih m (ex ++ [parent]) q hle' hq
        rw [segCount_sep f.name q hvf]
        omega

lemma buildMeasure_nil (parent : M) :
    buildMeasure parent ([] : List M) = 2 * Fintype.card M := by
  unfold buildMeasure
  simp [Finset.card_univ]

lemma buildMeasure_le (parent : M) (excludes : List M) :
    buildMeasure parent excludes ≤ 2 * Fintype.card M + 1 := by
  unfold buildMeasure
  have h1 : (Finset.univ \ excludes.toFinset).card ≤ Fintype.card M := by
    rw [← Finset.card_univ]
    exact Finset.card_le_card (Finset.sdiff_subset)
  split <;> omega

/-! ### Query shaping (`get_serializer`, views.py 84-113, and `get_queryset`,
views.py 115-147) -/

/-- Python's `str.split(",")` on the character list: split at every comma,
keeping empty pieces; the empty string yields `[[]]` (python:
`"".split(",") == [""]`). -/
def splitCommaChars : List Char → List (List Char)
  | [] => [[]]
  | c :: rest =>
    match splitCommaChars rest with
    | [] => [[c]]
    | seg :: segs => if c = ',' then [] :: seg :: segs else (c :: seg) :: segs

/-- Python's `str.split(",")`. -/
def splitComma (s : String) : List String :=
  (splitCommaChars s.data).map (fun l => ⟨l⟩)

/-- Python's `path.startswith(exclude)`: plain string prefix on characters. -/
def startswith (path e : String) : Bool :=
  e.data.isPrefixOf path.data

/-- The relation-path filtering performed identically in `get_serializer`
(views.py 101, 105-109) and `get_queryset` (views.py 133, 136-140):

    excludes = set(params.get("exclude", "").split(","))
    {path for path in all_paths
          if not any(path.startswith(exclude) for exclude in excludes if exclude)}

`excludeParam` is `params.get("exclude")` (`none` when the query parameter is
absent).  The `set(...)` around the split only removes duplicate entries,
which cannot change the result of `any`, so the split list is used directly. -/
def relations_paths (allPaths : Finset String) (excludeParam : Option String) :
    Finset String :=
  allPaths.filter (fun path =>
    (!((splitComma (excludeParam.getD "")).any
        (fun e => !(e == "") && startswith path e))) = true)

/-- Modelled from the spec: "string-prefix match on whole path segments, not
substring" — an exclude entry `e` matches a path `p` on whole segments when
`e` equals `p` or `e` followed by the separator `__` is a string prefix of
`p`. -/
def segmentPrefixMatch (e p : String) : Bool :=
  e == p || (e ++ "__").data.isPrefixOf p.data

/-- Accumulate a decimal digit string left to right; `none` as soon as a
non-digit appears. -/
def digitsValAux (acc : Nat) : List Char → Option Nat
  | [] => some acc
  | c :: rest =>
    if c.isDigit then digitsValAux (acc * 10 + (c.toNat - '0'.toNat)) rest
    else none

/-- Python's `int(str)` on the grammar `[-]digits` (leading `+` and
surrounding whitespace, which python also accepts, are irrelevant to the
claims and omitted): `none` models the `ValueError` raise. -/
def pyInt? (s : String) : Option Int :=
  match s.data with
  | [] => none
  | '-' :: [] => none
  | '-' :: c :: rest => (digitsValAux 0 (c :: rest)).map (fun n => -(n : Int))
  | l => (digitsValAux 0 l).map (fun n => (n : Int))

/-- The depth resolution of `get_serializer` / `get_queryset` (views.py 104
and 141): `int(params.get("depth", serializer_class.Meta.original_depth))`.
When the parameter is absent, `int` is applied to the (already integral)
default and returns it; when present, a non-integer string makes `int(...)`
raise `ValueError`, modelled as `Except.error`. -/
def effectiveDepth (depthParam : Option String) (originalDepth : Int) :
    Except String Int :=
  match depthParam with
  | none => Except.ok originalDepth
  | some sVal =>
    match pyInt? sVal with
    | some n => Except.ok n
    | none => Except.error ("invalid literal for int() with base 10: " ++ sVal)

/-- The filter validation of `get_queryset` (views.py 143):

    {field: value for field, value in params.items() if field in self._possible_fields}

`params` is the request's query-parameter mapping as an association list,
`possible` is the precomputed `_possible_fields` set
(`build_possible_fields(model, [])`, views.py 43). -/
def filter_by (params : List (String × String)) (possible : Finset String) :
    List (String × String) :=
  params.filter (fun kv => decide (kv.1 ∈ possible))

/-- The order_by validation of `get_queryset` (views.py 145):

    [field for field in params.get("order_by", "").split(",") if field in self._possible_fields]
-/
def order_by_fields (orderParam : Option String) (possible : Finset String) :
    List String :=
  (splitComma (orderParam.getD "")).filter (fun f => decide (f ∈ possible))

/-- C1.  The recursive path enumeration terminates on every finite schema,
cyclic or self-referential schemas included: run with any fuel at least
`2 * (number of models) + 2`, the literal recursion of the source
(`buildFuel`, which mirrors `build_possible_fields` but gives up when its
fuel runs out) completes and returns the total function's value, for the
top-level call with the empty exclusion list (views.py line 43). -/
theorem claim1_build_possible_fields_terminates (s : Schema M) (parent : M) :
    buildFuel s (2 * Fintype.card M + 2) parent [] =
      some (build_possible_fields s parent []) := by
  apply buildFuel_correct
  have := buildMeasure_le parent ([] : List M)
  omega

/-- C2, counterexample.  In the cyclic schema `A -b-> B -a-> A`, the relation
`a` of `B` targets `A`, which is already on the visited list `[A]`; contrary
to the claim, its single-segment path `"a"` is NOT emitted: the recursive
enumeration at `B` is empty, and consequently the top-level enumeration for
`A` is exactly `{"b"}`, with no `"b__a"`. -/
theorem claim2_counterexample :
    (⟨"a", some MAB.A⟩ : FieldRel MAB) ∈ sAB.fields MAB.B ∧
    MAB.A ∈ [MAB.A] ∧
    "a" ∉ build_possible_fields sAB MAB.B [MAB.A] ∧
    build_possible_fields sAB MAB.A [] = {"b"} := by
  refine ⟨by decide, by decide, ?_, build_eval sAB 8 MAB.A [] {"b"} (by decide) (by decide)⟩
  rw [build_eval sAB 8 MAB.B [MAB.A] ∅ (by decide) (by decide)]
  decide

/-- C2, amended.  A relation whose target model is already on the visited
(`excludes`) list is skipped entirely: it contributes nothing to the
enumeration — not even its single-segment path — because the source guards
both the `add` of the field name and the recursive expansion behind the same
`related_model not in excludes` test. -/
theorem claim2_visited_relation_fully_skipped (s : Schema M) (f : FieldRel M)
    (rest : List (FieldRel M)) (parent : M) (excludes : List M) (m : M)
    (h1 : f.related_model = some m) (h2 : m ∈ excludes) :
    buildFields s (f :: rest) parent excludes =
      buildFields s rest parent excludes := by
  simp [buildFields, h1, h2]

/-- Witness for the amended C2 at a concrete input: in `sAB`, dropping the
back-edge field `a` of `B` from the processed field list does not change the
enumeration when `A` is already visited. -/
theorem claim2_visited_relation_fully_skipped_witness :
    buildFields sAB [⟨"a", some MAB.A⟩] MAB.B [MAB.A] =
      buildFields sAB [] MAB.B [MAB.A] :=
  claim2_visited_relation_fully_skipped sAB ⟨"a", some MAB.A⟩ [] MAB.B [MAB.A]
    MAB.A rfl (by decide)

/-- C7, counterexample.  On the single-model schema with a self-reference and
a scalar field, the enumeration returns the path `"s__x"`, which has 2
segments while the schema has only 1 distinct model — the claimed bound
`segments ≤ number of entity types` fails. -/
theorem claim7_counterexample :
    "s__x" ∈ build_possible_fields sSelf MS.B [] ∧
    Fintype.card MS = 1 ∧
    segCount "s__x" = 2 ∧
    ¬ (segCount "s__x" ≤ Fintype.card MS) := by
  refine ⟨?_, by decide, by decide, by decide⟩
  rw [build_eval sSelf 8 MS.B [] {"s", "s__x", "x"} (by decide) (by decide)]
  decide

/-- C7, amended.  For every schema whose field names are valid Django names
(nonempty, no `__`, not ending in `_`), every path returned by the top-level
enumeration has segment count at most `2 * (number of distinct entity types)`
— twice the claimed bound, the factor 2 being forced by the one direct
self-reference step the source expands before the model enters the visited
list. -/
theorem claim7_path_segment_bound (s : Schema M) (hv : validNames s)
    (parent : M) (p : String)
    (hp : p ∈ build_possible_fields s parent []) :
    segCount p ≤ 2 * Fintype.card M := by
  have h := build_segCount_le s hv (buildMeasure parent ([] : List M))
    parent [] p le_rfl hp
  rwa [buildMeasure_nil] at h

/-- Witness for the amended C7 at a concrete input: the path `"s__x"` of the
self-referential single-model schema has `segCount = 2 ≤ 2 * Fintype.card MS`. -/
theorem claim7_path_segment_bound_witness :
    segCount "s__x" ≤ 2 * Fintype.card MS :=
  claim7_path_segment_bound sSelf
    (by unfold validNames validFieldName; decide)

    MS.B "s__x" (by
      rw [build_eval sSelf 8 MS.B [] {"s", "s__x", "x"} (by decide) (by decide)]
      decide)

/-- C3, counterexample.  With legal path set `{"author", "author_profile"}`
and `exclude=author`, the single-segment path `"author_profile"` is removed —
`"author_profile".startswith("author")` — although no exclude entry matches
it on whole path segments (`"author" ≠ "author_profile"` and `"author__"` is
not a prefix of `"author_profile"`): the code filter is a plain string-prefix
test, not a segment-aligned one. -/
theorem claim3_counterexample :
    "author_profile" ∈ ({"author", "author_profile"} : Finset String) ∧
    "author_profile" ∉
      relations_paths {"author", "author_profile"} (some "author") ∧
    (∀ e ∈ splitComma ((some "author").getD ""),
      ¬(e ≠ "" ∧ segmentPrefixMatch e "author_profile" = true)) := by
  refine ⟨by decide, by decide, by decide⟩

/-- C3, amended.  A path `p` of the legal path set is removed from the active
set if and only if some nonempty entry of the exclude parameter is a plain
string prefix of `p` (not necessarily aligned on `__` segment boundaries);
in particular excluding a path still excludes every extension of it, hence
its entire subtree of longer paths. -/
theorem claim3_exclusion_characterization (all : Finset String)
    (ep : Option String) :
    (∀ p ∈ all,
      (p ∉ relations_paths all ep ↔
        ∃ e ∈ splitComma (ep.getD ""), e ≠ "" ∧ startswith p e = true)) ∧
    (∀ e rest, e ∈ splitComma (ep.getD "") → e ≠ "" → (e ++ rest) ∈ all →
      (e ++ rest) ∉ relations_paths all ep) := by
  have hchar : ∀ p ∈ all,
      (p ∉ relations_paths all ep ↔
        ∃ e ∈ splitComma (ep.getD ""), e ≠ "" ∧ startswith p e = true) := by
    intro p hp
    constructor
    · intro hnot
      have hany : ((splitComma (ep.getD "")).any
          (fun e => !(e == "") && startswith p e)) = true := by
        by_contra hfalse
        apply hnot
        unfold relations_paths
        rw [Finset.mem_filter]
        refine ⟨hp, ?_⟩
        cases hb : ((splitComma (ep.getD "")).any
            (fun e => !(e == "") && startswith p e)) with
        | true => exact absurd hb hfalse
        | false => simp
      rw [List.any_eq_true] at hany
      obtain ⟨e, he, hcond⟩ := hany
      rw [Bool.and_eq_true] at hcond
      obtain ⟨h1, h2⟩ := hcond
      rw [Bool.not_eq_true', beq_eq_false_iff_ne] at h1
      exact ⟨e, he, h1, h2⟩
    · rintro ⟨e, he, hne, hpre⟩ hmem
      unfold relations_paths at hmem
      rw [Finset.mem_filter] at hmem
      have h2 := hmem.2
      rw [Bool.not_eq_true'] at h2
      rw [List.any_eq_false] at h2
      have h3 := h2 e he
      rw [hpre] at h3
      simp at h3
      exact hne h3
  refine ⟨hchar, ?_⟩
  intro e rest he hne hmem
  rw [hchar (e ++ rest) hmem]
  refine ⟨e, he, hne, ?_⟩
  unfold startswith
  have hdata : (e ++ rest).data = e.data ++ rest.data := by
    simp [String.data_append]
  rw [hdata]
  rw [List.isPrefixOf_iff_prefix]
  exact List.prefix_append _ _

/-- Witness for the amended C3 at a concrete input: excluding `"author"`
removes the whole subtree below it — concretely the longer path
`"author__name" = "author" ++ "__name"`. -/
theorem claim3_exclusion_characterization_witness :
    ("author" ++ "__name") ∉
      relations_paths {"author", "author__name"} (some "author") :=
  (claim3_exclusion_characterization {"author", "author__name"}
      (some "author")).2 "author" "__name" (by decide) (by decide) (by decide)

/-- C10.  When the `exclude` query parameter is absent (`none`) or the empty
string, no relation path is excluded: the active path set handed to the
serializer (views.py 105-109) and to `optimize_queryset` (views.py 136-140)
is the full precomputed path set, because splitting the empty parameter
yields only the empty-string entry, which the `if exclude` guard ignores. -/
theorem claim10_empty_exclude_keeps_all (all : Finset String) :
    relations_paths all none = all ∧ relations_paths all (some "") = all := by
  constructor <;>
  · apply Finset.filter_true_of_mem
    intro p _
    simp [splitComma, splitCommaChars]

/-- C4.  A filter key of the request is applied exactly when it is in the
precomputed `_possible_fields` set — unknown keys are dropped without error
(the comprehension at views.py 143 simply skips them); an `order_by` entry is
kept exactly when it is in the set (views.py 145), and the kept entries form
a sublist of the split parameter, preserving the caller's given order. -/
theorem claim4_unknown_keys_dropped (params : List (String × String))
    (possible : Finset String) (orderParam : Option String) :
    (∀ kv : String × String,
      kv ∈ filter_by params possible ↔ kv ∈ params ∧ kv.1 ∈ possible) ∧
    (∀ f : String,
      f ∈ order_by_fields orderParam possible ↔
        f ∈ splitComma (orderParam.getD "") ∧ f ∈ possible) ∧
    List.Sublist (order_by_fields orderParam possible)
      (splitComma (orderParam.getD "")) := by
  refine ⟨?_, ?_, List.filter_sublist _⟩
  · intro kv
    simp [filter_by, List.mem_filter]
  · intro f
    simp [order_by_fields, List.mem_filter]

/-- C8.  The effective depth is the request's `depth` parameter when present
(and parseable), the serializer's default otherwise; a non-integer `depth`
parameter propagates as an error (`ValueError` from `int(...)`, views.py 104
and 141) and is never silently replaced by the default. -/
theorem claim8_depth_resolution (d : Int) :
    effectiveDepth none d = Except.ok d ∧
    (∀ sVal n, pyInt? sVal = some n →
      effectiveDepth (some sVal) d = Except.ok n) ∧
    (∀ sVal, pyInt? sVal = none →
      effectiveDepth (some sVal) d =
        Except.error ("invalid literal for int() with base 10: " ++ sVal)) := by
  refine ⟨rfl, ?_, ?_⟩
  · intro sVal n h
    simp [effectiveDepth, h]
  · intro sVal h
    simp [effectiveDepth, h]

/-- Witness for C8 at concrete inputs: present-and-valid `depth=7` overrides
the default 3, absent depth falls back to 3, and the malformed `depth=abc`
yields an error, not the default. -/
theorem claim8_depth_resolution_witness :
    effectiveDepth none 3 = Except.ok 3 ∧
    effectiveDepth (some "7") 3 = Except.ok 7 ∧
    effectiveDepth (some "abc") 3 =
      Except.error ("invalid literal for int() with base 10: " ++ "abc") :=
  ⟨(claim8_depth_resolution 3).1,
   (claim8_depth_resolution 3).2.1 "7" 7 (by decide),
   (claim8_depth_resolution 3).2.2 "abc" (by decide)⟩

/-! ### The view-set registry (`__init_subclass__`, views.py 30-45, and
`get_view_set_class`, views.py 149-180) -/

/-- State of the process-wide registry `ReadOnlyDeepViewSet._viewsets`.
View-set classes are modelled by identity tokens (`Nat`): two equal tokens
mean the very same class object.  `table` is the dict (later associations
shadow earlier ones, like dict assignment), `nextId` supplies a fresh token
per generated class, and `buildCount` counts class constructions — each one
runs `__init_subclass__`, which computes the `_possible_fields` legal path
set exactly once (views.py 43). -/
structure RegState where
  table : List (String × Nat)
  nextId : Nat
  buildCount : Nat
deriving DecidableEq

/-- `get_view_set_class` (views.py 149-180): build the key
`use_case + model.__name__ + "ViewSet"`; if it is not in `_viewsets`, define
`class CommonViewSet(cls)`, whose creation triggers `__init_subclass__`
(views.py 30-45) — registering the new class under the same key and
computing its `_possible_fields` — and finally return
`cls._viewsets[view_set_name]`. -/
def get_view_set_class (st : RegState) (key : String) : RegState × Option Nat :=
  match st.table.lookup key with
  | some h => (st, some h)
  | none =>
    let st' : RegState :=
      ⟨(key, st.nextId) :: st.table, st.nextId + 1, st.buildCount + 1⟩
    (st', st'.table.lookup key)

/-- Defining a user view-set subclass with a `queryset` runs
`__init_subclass__` (views.py 39-45), which unconditionally assigns
`cls._viewsets[cls.use_case + model.__name__ + "ViewSet"] = cls` and computes
its `_possible_fields` once. -/
def register_manual (st : RegState) (key : String) (h : Nat) : RegState :=
  ⟨(key, h) :: st.table, st.nextId, st.buildCount + 1⟩

/-- Run a sequence of registry lookups (each possibly auto-generating). -/
def runGets (st : RegState) (keys : List String) : RegState :=
  keys.foldl (fun acc k => (get_view_set_class acc k).1) st

/-- C5.  Requesting the same key twice returns the identical handler token,
leaves the registry state unchanged and performs no further construction:
the second lookup hits the cache, so the legal-path-set computation of
`__init_subclass__` happens at most once per key. -/
theorem claim5_registry_idempotent (st : RegState) (key : String) :
    (get_view_set_class (get_view_set_class st key).1 key).2
      = (get_view_set_class st key).2 ∧
    (get_view_set_class (get_view_set_class st key).1 key).1
      = (get_view_set_class st key).1 ∧
    ((get_view_set_class (get_view_set_class st key).1 key).1).buildCount
      = ((get_view_set_class st key).1).buildCount := by
  cases hl : st.table.lookup key with
  | some h =>
    refine ⟨?_, ?_, ?_⟩ <;> simp [get_view_set_class, hl]
  | none =>
    refine ⟨?_, ?_, ?_⟩ <;> simp [get_view_set_class, hl, List.lookup]

lemma lookup_preserved (st : RegState) (k key : String) (h : Nat)
    (hl : st.table.lookup key = some h) :
    ((get_view_set_class st k).1).table.lookup key = some h := by
  cases hk : st.table.lookup k with
  | some h' => simpa [get_view_set_class, hk] using hl
  | none =>
    have hne : key ≠ k := by
      rintro rfl
      rw [hl] at hk
      cases hk
    have hbeq : (key == k) = false := by
      simp [hne]
    simp [get_view_set_class, hk, List.lookup, hbeq, hl]

/-- C6.  A manually registered view-set (a user subclass registered under a
key by `__init_subclass__`) takes precedence and is never overwritten by
auto-generation: whatever the registry held before (in particular an earlier
auto-generated entry for the same key, covering both orders of manual
registration and auto-generation) and whatever lookups follow, looking the
key up always yields the manual class — `get_view_set_class` only ever
inserts on a miss. -/
theorem claim6_manual_registration_never_overwritten (st : RegState)
    (key : String) (h : Nat) (keys : List String) :
    ((runGets (register_manual st key h) keys).table).lookup key = some h := by
  have haux : ∀ (ks : List String) (st0 : RegState),
      st0.table.lookup key = some h →
      ((runGets st0 ks).table).lookup key = some h := by
    intro ks
    induction ks with
    | nil => intro st0 h0; exact h0
    | cons k rest ih =>
      intro st0 h0
      exact ih ((get_view_set_class st0 k).1) (lookup_preserved st0 k key h h0)
  apply haux
  simp [register_manual, List.lookup]

/-! ### Nested write engine (`DeepCreateViewSet.deep_create`, views.py
191-201).  The action calls
`self.get_serializer().deep_update_or_create(self.queryset.model,
request.data, raise_exception=True)`; `deep_update_or_create` itself lives in
`serializers.py`, which is not part of the sources, so it is modelled from
the specification (§4.4). -/

/-- A structured validation failure: the path of relation names from the root
of the nested payload to the offending node, and the failing field. -/
structure VErr where
  path : List String
  field : String
deriving DecidableEq

/-- A node of the nested write payload: the relation name under which it
sits, its scalar fields (name/value pairs), and its nested child payloads. -/
inductive WriteNode where
  | mk (rel : String) (fields : List (String × String)) (children : List WriteNode)

/-- Persisted storage: one record per persisted node (its path and its scalar
fields). -/
abbrev Store := List (List String × List (String × String))

mutual

/-- Modelled from the spec: the recursive descent of `deep_update_or_create`
(serializers.py, absent from the sources; spec §4.4) with
`raise_exception=True`, as `deep_create` always calls it (views.py 199).
Validate the node's scalar fields with the external validator; on the first
invalid field fail with a structured error carrying the node's path and the
field name; otherwise persist the node and recursively persist its
children, threading storage. -/
def persistNode (valid : String → String → Bool) (path : List String)
    (store : Store) : WriteNode → Except VErr Store
  | .mk rel fields children =>
    match fields.find? (fun fv => !(valid fv.1 fv.2)) with
    | some fv => Except.error ⟨path ++ [rel], fv.1⟩
    | none =>
      persistChildren valid (path ++ [rel])
        (store ++ [(path ++ [rel], fields)]) children

/-- Modelled from the spec: persist a list of sibling child payloads in
order, aborting on the first validation failure. -/
def persistChildren (valid : String → String → Bool) (path : List String)
    (store : Store) : List WriteNode → Except VErr Store
  | [] => Except.ok store
  | c :: rest =>
    match persistNode valid path store c with
    | Except.error e => Except.error e
    | Except.ok store' => persistChildren valid path store' rest

end

/-- Modelled from the spec: `deep_update_or_create` runs the whole recursive
descent in one atomic transaction (spec §4.4/§5): on success the new storage
is committed; on any validation failure the transaction rolls back and
storage is returned unchanged together with the structured error. -/
def deep_update_or_create (valid : String → String → Bool) (store : Store)
    (w : WriteNode) : Store × Option VErr :=
  match persistNode valid [] store w with
  | Except.ok st' => (st', none)
  | Except.error e => (store, some e)

/-- The payload `w` contains, at relation path `p`, a node one of whose
scalar fields `fname` fails validation. -/
inductive InvalidAt (valid : String → String → Bool) :
    WriteNode → List String → String → Prop where
  | here {rel : String} {fields : List (String × String)}
      {children : List WriteNode} {fname v : String} :
      (fname, v) ∈ fields → valid fname v = false →
      InvalidAt valid (.mk rel fields children) [rel] fname
  | child {rel : String} {fields : List (String × String)}
      {children : List WriteNode} {c : WriteNode} {p : List String}
      {fname : String} :
      c ∈ children → InvalidAt valid c p fname →
      InvalidAt valid (.mk rel fields children) (rel :: p) fname

lemma persist_error_names (valid : String → String → Bool) :
    ∀ (N : Nat) (w : WriteNode) (path : List String) (store : Store) (e : VErr),
      sizeOf w ≤ N → persistNode valid path store w = Except.error e →
      ∃ sub, e.path = path ++ sub ∧ InvalidAt valid w sub e.field := by
  intro N
  induction N with
  | zero =>
    intro w path store e hsz _
    cases w with
    | mk rel fields children =>
      simp only [WriteNode.mk.sizeOf_spec] at hsz
      omega
  | succ N ih =>
    intro w path store e hsz herr
    cases w with
    | mk rel fields children =>
      simp only [persistNode] at herr
      cases hfind : fields.find? (fun fv => !(valid fv.1 fv.2)) with
      | some fv =>
        rw [hfind] at herr
        have hmem := List.mem_of_find?_eq_some hfind
        have hpred := List.find?_some hfind
        rw [Bool.not_eq_true'] at hpred
        injection herr with hEq
        subst hEq
        refine ⟨[rel], rfl, ?_⟩
        exact InvalidAt.here (v := fv.2) (by simpa using hmem) hpred
      | none =>
        rw [hfind] at herr
        have hsizes : ∀ c ∈ children, sizeOf c ≤ N := by
          intro c hc
          have h1 : sizeOf c < sizeOf children := List.sizeOf_lt_of_mem hc
          simp only [WriteNode.mk.sizeOf_spec] at hsz
          omega
        have hinner : ∀ (cs : List WriteNode) (st0 : Store),
            (∀ c ∈ cs, sizeOf c ≤ N) →
            persistChildren valid (path ++ [rel]) st0 cs = Except.error e →
            ∃ c ∈ cs, ∃ sub', e.path = (path ++ [rel]) ++ sub' ∧
              InvalidAt valid c sub' e.field := by
          intro cs
          induction cs with
          | nil =>
            intro st0 _ hcontra
            simp [persistChildren] at hcontra
          | cons c0 rest ihc =>
            intro st0 hszs hc
            simp only [persistChildren] at hc
            cases hp : persistNode valid (path ++ [rel]) st0 c0 with
            | error e0 =>
              rw [hp] at hc
              injection hc with hEq
              subst hEq
              obtain ⟨sub', hpath, hI⟩ :=
                ih c0 (path ++ [rel]) st0 e0 (hszs c0 (by simp)) hp
              exact ⟨c0, by simp, sub', hpath, hI⟩
            | ok st1 =>
              rw [hp] at hc
              obtain ⟨c, hcmem, sub', hpath, hI⟩ :=
                ihc st1 (fun c hc' => hszs c (by simp [hc'])) hc
              exact ⟨c, by simp [hcmem], sub', hpath, hI⟩
        obtain ⟨c, hcmem, sub', hpath, hI⟩ :=
          hinner children (store ++ [(path ++ [rel], fields)]) hsizes herr
        refine ⟨rel :: sub', ?_, InvalidAt.child hcmem hI⟩
        rw [hpath, List.append_assoc]
        rfl

lemma invalid_persist_fails (valid : String → String → Bool) :
    ∀ (N : Nat) (w : WriteNode) (p : List String) (fname : String),
      sizeOf w ≤ N → InvalidAt valid w p fname →
      ∀ (path : List String) (store : Store),
        ∃ e, persistNode valid path store w = Except.error e := by
  intro N
  induction N with
  | zero =>
    intro w p fname hsz _
    cases w with
    | mk rel fields children =>
      simp only [WriteNode.mk.sizeOf_spec] at hsz
      omega
  | succ N ih =>
    intro w p fname hsz hI path store
    cases hI with
    | @here rel fields children fname2 v hmemf hvalid =>
      have hsome : (fields.find? (fun fv => !(valid fv.1 fv.2))).isSome := by
        rw [List.find?_isSome]
        exact ⟨(fname, v), hmemf, by simp [hvalid]⟩
      obtain ⟨fv, hfv⟩ := Option.isSome_iff_exists.mp hsome
      exact ⟨⟨path ++ [rel], fv.1⟩, by simp only [persistNode, hfv]⟩
    | @child rel fields children c p' fname2 hcmem hcI =>
      cases hfind : fields.find? (fun fv => !(valid fv.1 fv.2)) with
      | some fv =>
        exact ⟨⟨path ++ [rel], fv.1⟩, by simp only [persistNode, hfind]⟩
      | none =>
        have hsz' : sizeOf c ≤ N := by
          have h1 : sizeOf c < sizeOf children := List.sizeOf_lt_of_mem hcmem
          simp only [WriteNode.mk.sizeOf_spec] at hsz
          omega
        have hc : ∀ (path' : List String) (store' : Store),
            ∃ e, persistNode valid path' store' c = Except.error e :=
          fun path' store' => ih c p' fname hsz' hcI path' store'
        have hlist : ∀ (cs : List WriteNode) (st0 : Store), c ∈ cs →
            ∃ e, persistChildren valid (path ++ [rel]) st0 cs
              = Except.error e := by
          intro cs
          induction cs with
          | nil =>
            intro st0 hmem
            cases hmem
          | cons c0 rest ihc =>
            intro st0 hmem
            cases hp : persistNode valid (path ++ [rel]) st0 c0 with
            | error e0 => exact ⟨e0, by simp only [persistChildren, hp]⟩
            | ok st1 =>
              rcases List.mem_cons.mp hmem with rfl | hmem'
              · obtain ⟨e, he⟩ := hc (path ++ [rel]) st0
                rw [he] at hp
                cases hp
              · obtain ⟨e, he⟩ := ihc st1 hmem'
                exact ⟨e, by simp only [persistChildren, hp, he]⟩
        obtain ⟨e, he⟩ := hlist children (store ++ [(path ++ [rel], fields)]) hcmem
        exact ⟨e, by simp only [persistNode, hfind, he]⟩

/-- C9.  (Modelled from the spec: the callee `deep_update_or_create` is in
`serializers.py`, outside the sources.)  If the nested payload contains any
node failing field validation, then — with `raise_exception=True`, as
`deep_create` always passes (views.py 199) — the whole write aborts: the
returned storage is exactly the original one (no root or descendant record
persisted), and the surfaced validation error names the relation path and
field of an actually-invalid node. -/
theorem claim9_invalid_write_atomic_abort (valid : String → String → Bool)
    (store : Store) (w : WriteNode)
    (hinv : ∃ p fname, InvalidAt valid w p fname) :
    ∃ e : VErr, deep_update_or_create valid store w = (store, some e) ∧
      InvalidAt valid w e.path e.field := by
  obtain ⟨p, fname, hI⟩ := hinv
  obtain ⟨e, he⟩ :=
    invalid_persist_fails valid (sizeOf w) w p fname le_rfl hI [] store
  refine ⟨e, ?_, ?_⟩
  · simp only [deep_update_or_create, he]
  · obtain ⟨sub, hpath, hIA⟩ :=
      persist_error_names valid (sizeOf w) w [] store e le_rfl he
    rw [List.nil_append] at hpath
    rwa [hpath]

/-- Concrete nested payload: a valid root with one child whose field `name`
has the rejected value `bad`. -/
def wExample : WriteNode :=
  .mk "root" [("title", "ok")] [.mk "child" [("name", "bad")] []]

/-- Concrete validator: rejects exactly the value `bad`. -/
def validExample : String → String → Bool :=
  fun _fname v => !(v == "bad")

/-- Witness for C9 at a concrete input: writing `wExample` against the empty
store aborts, leaves the store empty and surfaces an error naming an invalid
node. -/
theorem claim9_invalid_write_atomic_abort_witness :
    ∃ e : VErr, deep_update_or_create validExample [] wExample = ([], some e) ∧
      InvalidAt validExample wExample e.path e.field :=
  claim9_invalid_write_atomic_abort validExample [] wExample
    ⟨["root", "child"], "name", by
      show InvalidAt validExample wExample ["root", "child"] "name"
      unfold wExample
      exact InvalidAt.child (List.mem_singleton.mpr rfl)
        (InvalidAt.here (v := "bad") (List.mem_singleton.mpr rfl) (by decide))⟩

end DeepSerializer
